import Mathlib

/-!
Shallow embedding of `src/circular_buffer.c` (a fixed-capacity circular
buffer of opaque pointer elements) and verification of its specification.

Modelling conventions:
* Elements (`void *`) are modelled as `Nat`; the value `0` stands for the
  NULL pointer written by `memset`.
* The struct fields `head`, `tail`, `len`, `maxlen` are C `int`s that are
  non-negative in every state produced by a successful initialization, so
  they are modelled as `Nat`.  Function parameters that a caller could pass
  as negative (`len` / `offset` of the bulk operations) are modelled as `Int`.
* A C function that mutates the buffer through its pointer argument is
  modelled as returning the post-state together with its return value; the
  error paths of the C code return before any mutation, which the model
  reflects by returning the input state unchanged.
* `malloc` is modelled by oracles: a `Bool` saying whether allocation
  succeeds and a list giving the (uninitialized, arbitrary) contents of the
  allocated block.
* `memset(data_buf, 0, len)` passes `len` as a BYTE count over an array of
  `void *` elements; it is modelled at byte granularity through an element
  size parameter `S` (`sizeof(void *)`, platform-dependent) and an oracle
  for the one partially-overwritten slot, see `memset_zero`.
* NULL-pointer arguments are modelled with `Option`: the core definitions
  take the pointees and model the non-NULL path, and `..._opt` wrappers add
  the NULL checks that the C functions perform first.
-/

namespace CircularBuffer

/-- Elements are opaque `void *` pointers, modelled as `Nat` (0 = NULL). -/
abbrev Val := Nat

/-- Error outcomes of the C functions.  `einval` and `enomem` are the
`errno` values EINVAL / ENOMEM; `full` is the push failure on a full buffer
(the C code returns -1 there without setting `errno`). -/
inductive Err where
  | einval
  | enomem
  | full
  deriving Repr, DecidableEq

/-- `struct circular_buffer` (circular_buffer.h lines 551-557).
`buffer` is the malloc'd array of `maxlen` element slots. -/
structure CBuf where
  buffer : List Val
  head : Nat
  tail : Nat
  len : Nat
  maxlen : Nat
  deriving Repr, DecidableEq

/-- C return-value convention: `-1` on error, otherwise the count. -/
def cret (r : Except Err Int) : Int :=
  match r with
  | .ok n => n
  | .error _ => -1

/-- `circular_buffer_is_empty` (lines 251-267), non-NULL path: returns 1
iff `len == 0` (modelled as `Bool`). -/
def circular_buffer_is_empty (c : CBuf) : Bool :=
  c.len == 0

/-- `circular_buffer_is_full` (lines 282-298), non-NULL path: returns 1
iff `len == maxlen` (modelled as `Bool`). -/
def circular_buffer_is_full (c : CBuf) : Bool :=
  c.len == c.maxlen

/-- The mutation performed by the success path of `circular_buffer_push`
(lines 143-150), which `circular_buffer_set_data` repeats verbatim in its
loop body (lines 433-440): advance `head` only if the buffer is non-empty,
store at `head`, increment `len`. -/
def push_step (c : CBuf) (data : Val) : CBuf :=
  let c1 := if c.len > 0 then { c with head := (c.head + 1) % c.maxlen } else c
  { c1 with buffer := c1.buffer.set c1.head data, len := c1.len + 1 }

/-- The mutation performed by the success path of `circular_buffer_pop`
(lines 196-205), which `circular_buffer_get_data` repeats verbatim in its
loop body (lines 362-369): read at `tail`, advance `tail` only if `len > 1`,
decrement `len`.  Returns the post-state and the element read. -/
def pop_step (c : CBuf) : CBuf × Val :=
  let data := c.buffer.getD c.tail 0
  let c1 := if c.len > 1 then { c with tail := (c.tail + 1) % c.maxlen } else c
  ({ c1 with len := c1.len - 1 }, data)

/-- `circular_buffer_push` (lines 125-153), non-NULL path: fail if full,
else perform `push_step`. -/
def circular_buffer_push (c : CBuf) (data : Val) : CBuf × Except Err Unit :=
  if circular_buffer_is_full c then (c, .error .full)
  else (push_step c data, .ok ())

/-- `circular_buffer_pop` (lines 170-208), non-NULL-arguments path: fail
with EINVAL if empty, else perform `pop_step`. -/
def circular_buffer_pop (c : CBuf) : CBuf × Except Err Val :=
  if circular_buffer_is_empty c then (c, .error .einval)
  else
    let r := pop_step c
    (r.1, .ok r.2)

/-- `circular_buffer_empty` (lines 221-236), non-NULL path: reset
`head = tail = 0`, `len = 0` (the spec calls this Clear). -/
def circular_buffer_empty (c : CBuf) : CBuf :=
  { c with head := 0, tail := 0, len := 0 }

/-- `circular_buffer_init` (lines 44-70).  The receiver pointer is
`Option Unit` (is it NULL?); `allocOk`/`mem` are the `malloc` oracles: on
success the allocated block holds `mem`, a list of `max_len` arbitrary
slots.  Note the code never validates `max_len` itself. -/
def circular_buffer_init (c_buf : Option Unit) (max_len : Int)
    (allocOk : Bool) (mem : List Val) : Except Err CBuf :=
  if c_buf = none then .error .einval
  else if allocOk = false then .error .enomem
  else .ok { buffer := mem, head := 0, tail := 0, len := 0, maxlen := max_len.toNat }

/-- `memset(data_buf, 0, n)` over an array of `void *` elements.  The C
call passes `n` as a BYTE count while each slot occupies
`S = sizeof(void *)` bytes (platform-dependent; the code omits the
`* sizeof(void *)` scaling, so for `S > 1` most of the destination is not
actually cleared).  Slot `i` covers bytes `[i*S, (i+1)*S)`: it is fully
zeroed when `(i+1)*S <= n`, partially zeroed when `i*S < n < (i+1)*S`
(the resulting element value depends on the byte layout and is given by
the oracle `pz`, applied to the old value), and untouched otherwise. -/
def memset_zero (S : Nat) (pz : Val → Val) (buf : List Val) (n : Nat) : List Val :=
  (List.range buf.length).map (fun i =>
    if (i + 1) * S ≤ n then 0
    else if i * S < n then pz (buf.getD i 0)
    else buf.getD i 0)

/-- The `while` loop of `circular_buffer_get_data` (lines 361-370): repeat
`pop_step`, writing into `data_buf[offset + count]`, while the buffer is
non-empty and `count + offset < len`. -/
def get_data_loop (c : CBuf) (buf : List Val) (len offset count : Int) :
    CBuf × List Val × Int :=
  if h : 0 < c.len ∧ count + offset < len then
    let r := pop_step c
    get_data_loop r.1 (buf.set (offset + count).toNat r.2) len offset (count + 1)
  else (c, buf, count)
termination_by c.len
decreasing_by
  simp only [pop_step, r]
  split <;> simp <;> omega

/-- `circular_buffer_get_data` (lines 325-374), non-NULL-arguments path:
reject `len <= 0`, run `memset(data_buf, 0, len)` (`S`/`pz` are the
platform oracles of `memset_zero`), then drain. -/
def circular_buffer_get_data (S : Nat) (pz : Val → Val) (c : CBuf) (data_buf : List Val)
    (len offset : Int) : CBuf × List Val × Except Err Int :=
  if len ≤ 0 then (c, data_buf, .error .einval)
  else
    let r := get_data_loop c (memset_zero S pz data_buf len.toNat) len offset 0
    (r.1, r.2.1, .ok r.2.2)

/-- `circular_buffer_get_data` with its NULL checks (lines 330-345). -/
def circular_buffer_get_data_opt (S : Nat) (pz : Val → Val) (c : Option CBuf)
    (data_buf : Option (List Val)) (len offset : Int) :
    Option CBuf × Option (List Val) × Except Err Int :=
  match c, data_buf with
  | none, d => (none, d, .error .einval)
  | some c, none => (some c, none, .error .einval)
  | some c, some d =>
      let r := circular_buffer_get_data S pz c d len offset
      (some r.1, some r.2.1, r.2.2)

/-- The `while` loop of `circular_buffer_set_data` (lines 432-441): repeat
`push_step` with `data_buf[offset + count]` while the buffer is not full
and `count + offset < len`. -/
def set_data_loop (c : CBuf) (buf : List Val) (len offset count : Int) :
    CBuf × Int :=
  if h : c.len < c.maxlen ∧ count + offset < len then
    set_data_loop (push_step c (buf.getD (offset + count).toNat 0)) buf len offset (count + 1)
  else (c, count)
termination_by c.maxlen - c.len
decreasing_by
  simp only [push_step]
  split <;> simp <;> omega

/-- `circular_buffer_set_data` (lines 399-445), non-NULL-arguments path:
reject `len < 0` (zero is allowed), then fill from the source. -/
def circular_buffer_set_data (c : CBuf) (data_buf : List Val)
    (len offset : Int) : CBuf × Except Err Int :=
  if len < 0 then (c, .error .einval)
  else
    let r := set_data_loop c data_buf len offset 0
    (r.1, .ok r.2)

/-- `circular_buffer_set_data` with its NULL checks (lines 404-419). -/
def circular_buffer_set_data_opt (c : Option CBuf) (data_buf : Option (List Val))
    (len offset : Int) : Option CBuf × Except Err Int :=
  match c, data_buf with
  | none, _ => (none, .error .einval)
  | some c, none => (some c, .error .einval)
  | some c, some d =>
      let r := circular_buffer_set_data c d len offset
      (some r.1, r.2)

/-- The `while` loop of `circular_buffer_peek` (lines 512-520): `count`
starts at `offset` (line 510) and `i` at `(tail + offset) % maxlen`
(line 511 — note: `offset`, not `offset_cb`); copy `buffer[i]` into
`data_buf[offset + count]` while `count < c.len` and `count + offset < len`,
advancing the local cursor `i` only if `c.len > 1`. -/
def peek_loop (c : CBuf) (buf : List Val) (len offset count i : Int) :
    List Val × Int :=
  if h : count < (c.len : Int) ∧ count + offset < len then
    let buf1 := buf.set (offset + count).toNat (c.buffer.getD i.toNat 0)
    let i1 := if c.len > 1 then Int.tmod (i + 1) (c.maxlen : Int) else i
    peek_loop c buf1 len offset (count + 1) i1
  else (buf, count)
termination_by ((c.len : Int) - count).toNat
decreasing_by omega

set_option linter.unusedVariables false in
/-- `circular_buffer_peek` (lines 474-524), non-NULL-arguments path:
reject `len <= 0`, zero the destination, then run the peek loop.  The
`offset_cb` parameter is accepted but never read by the C code.  The buffer
state is returned unchanged (the function never writes to `c_buf`). -/
def circular_buffer_peek (S : Nat) (pz : Val → Val) (c : CBuf) (data_buf : List Val)
    (len offset offset_cb : Int) : CBuf × List Val × Except Err Int :=
  if len ≤ 0 then (c, data_buf, .error .einval)
  else
    let buf0 := memset_zero S pz data_buf len.toNat
    let i0 := Int.tmod ((c.tail : Int) + offset) (c.maxlen : Int)
    let r := peek_loop c buf0 len offset offset i0
    (c, r.1, .ok r.2)

/-! ## Abstract model: buffer contents as a list, structural invariant -/

/-- The logical contents of the buffer, oldest first: the `len` elements at
positions `tail, tail+1, ..., tail+len-1 (mod maxlen)`. -/
def toList (c : CBuf) : List Val :=
  (List.range c.len).map (fun j => c.buffer.getD ((c.tail + j) % c.maxlen) 0)

/-- Structural invariant of a well-formed buffer state: the storage has
`maxlen` slots, `len` never exceeds `maxlen`, the cursors stay in range,
`head == tail` when empty, and `head == (tail + len - 1) mod maxlen`
otherwise. -/
def Inv (c : CBuf) : Prop :=
  c.buffer.length = c.maxlen ∧ c.len ≤ c.maxlen ∧
  (0 < c.maxlen → c.head < c.maxlen ∧ c.tail < c.maxlen) ∧
  (c.len = 0 → c.head = c.tail) ∧
  (0 < c.len → c.head = (c.tail + c.len - 1) % c.maxlen)

instance (c : CBuf) : Decidable (Inv c) := by
  unfold Inv
  infer_instance

/-- States reachable from a successful `circular_buffer_init` by the
buffer's own operations.  (`is_empty` and `is_full` are pure queries and
`peek` never writes the buffer, so they do not change the state.) -/
inductive Reach : CBuf → Prop where
  | init (cap : Nat) (mem : List Val) (h : mem.length = cap) :
      Reach ⟨mem, 0, 0, 0, cap⟩
  | push (c : CBuf) (x : Val) : Reach c → Reach (circular_buffer_push c x).1
  | pop (c : CBuf) : Reach c → Reach (circular_buffer_pop c).1
  | clear (c : CBuf) : Reach c → Reach (circular_buffer_empty c)
  | drain (c : CBuf) (S : Nat) (pz : Val → Val) (d : List Val) (len offset : Int) :
      Reach c → Reach (circular_buffer_get_data S pz c d len offset).1
  | fill (c : CBuf) (d : List Val) (len offset : Int) :
      Reach c → Reach (circular_buffer_set_data c d len offset).1
  | peekOp (c : CBuf) (S : Nat) (pz : Val → Val) (d : List Val) (len offset ocb : Int) :
      Reach c → Reach (circular_buffer_peek S pz c d len offset ocb).1

/-! ## List helper lemmas -/

theorem getD_set_self (l : List Val) (i : Nat) (v : Val) (h : i < l.length) :
    (l.set i v).getD i 0 = v := by
  simp [List.getD_eq_getElem?_getD, List.getElem?_set, h]

theorem getD_set_ne (l : List Val) (i j : Nat) (v : Val) (h : i ≠ j) :
    (l.set i v).getD j 0 = l.getD j 0 := by
  simp [List.getD_eq_getElem?_getD, List.getElem?_set, h]

/-- Two in-range offsets from the same base are equal once their rotations
coincide. -/
theorem add_mod_inj (m t a b : Nat) (ha : a < m) (hb : b < m)
    (h : (t + a) % m = (t + b) % m) : a = b := by
  have h1 : a % m = b % m := Nat.ModEq.add_left_cancel' t h
  rwa [Nat.mod_eq_of_lt ha, Nat.mod_eq_of_lt hb] at h1

/-! ## Behaviour of the push and pop mutation steps -/

theorem push_step_pos (c : CBuf) (x : Val) (h0 : 0 < c.len) :
    push_step c x = ⟨c.buffer.set ((c.head + 1) % c.maxlen) x,
      (c.head + 1) % c.maxlen, c.tail, c.len + 1, c.maxlen⟩ := by
  unfold push_step
  simp [h0]

theorem push_step_zero (c : CBuf) (x : Val) (h0 : c.len = 0) :
    push_step c x = ⟨c.buffer.set c.head x, c.head, c.tail, 1, c.maxlen⟩ := by
  unfold push_step
  simp [h0]

theorem pop_step_gt1 (c : CBuf) (h1 : 1 < c.len) :
    pop_step c = (⟨c.buffer, c.head, (c.tail + 1) % c.maxlen, c.len - 1, c.maxlen⟩,
      c.buffer.getD c.tail 0) := by
  unfold pop_step
  simp [h1]

theorem pop_step_le1 (c : CBuf) (h1 : ¬ 1 < c.len) :
    pop_step c = (⟨c.buffer, c.head, c.tail, c.len - 1, c.maxlen⟩,
      c.buffer.getD c.tail 0) := by
  unfold pop_step
  simp [h1]

theorem Inv_mk (B : List Val) (h t l m : Nat) :
    Inv ⟨B, h, t, l, m⟩ ↔
      (B.length = m ∧ l ≤ m ∧ (0 < m → h < m ∧ t < m) ∧
        (l = 0 → h = t) ∧ (0 < l → h = (t + l - 1) % m)) :=
  Iff.rfl

theorem toList_mk (B : List Val) (h t l m : Nat) :
    toList ⟨B, h, t, l, m⟩ = (List.range l).map (fun j => B.getD ((t + j) % m) 0) :=
  rfl

theorem push_step_Inv (c : CBuf) (x : Val) (hInv : Inv c) (hlt : c.len < c.maxlen) :
    Inv (push_step c x) := by
  obtain ⟨hlen, hle, hbnd, hemp, hpos⟩ := hInv
  have hm : 0 < c.maxlen := Nat.lt_of_le_of_lt (Nat.zero_le _) hlt
  obtain ⟨hhd, htl⟩ := hbnd hm
  by_cases h0 : 0 < c.len
  · rw [push_step_pos c x h0, Inv_mk]
    refine ⟨by simpa using hlen, by omega, fun _ => ⟨Nat.mod_lt _ hm, htl⟩, by omega, fun _ => ?_⟩
    rw [hpos h0, Nat.mod_add_mod]
    congr 1
    omega
  · have hz : c.len = 0 := by omega
    rw [push_step_zero c x hz, Inv_mk]
    refine ⟨by simpa using hlen, by omega, fun _ => ⟨hhd, htl⟩, by omega, fun _ => ?_⟩
    rw [hemp hz]
    simp [Nat.mod_eq_of_lt htl]

theorem push_step_toList (c : CBuf) (x : Val) (hInv : Inv c) (hlt : c.len < c.maxlen) :
    toList (push_step c x) = toList c ++ [x] := by
  obtain ⟨hlen, hle, hbnd, hemp, hpos⟩ := hInv
  have hm : 0 < c.maxlen := Nat.lt_of_le_of_lt (Nat.zero_le _) hlt
  obtain ⟨hhd, htl⟩ := hbnd hm
  by_cases h0 : 0 < c.len
  · rw [push_step_pos c x h0, toList_mk]
    unfold toList
    have hnew : (c.head + 1) % c.maxlen = (c.tail + c.len) % c.maxlen := by
      rw [hpos h0, Nat.mod_add_mod]
      congr 1
      omega
    simp only [List.range_succ, List.map_append, List.map_cons, List.map_nil]
    congr 1
    · apply List.map_congr_left
      intro j hj
      simp only [List.mem_range] at hj
      apply getD_set_ne
      rw [hnew]
      intro hcon
      have := add_mod_inj c.maxlen c.tail c.len j (by omega) (by omega) hcon
      omega
    · simp only [List.cons.injEq, and_true]
      rw [hnew]
      apply getD_set_self
      rw [hlen]
      exact Nat.mod_lt _ hm
  · have hz : c.len = 0 := by omega
    rw [push_step_zero c x hz, toList_mk]
    unfold toList
    rw [hz]
    simp only [List.range_succ, List.range_zero, List.map_nil, List.map_cons,
      List.nil_append, List.map_append]
    have ht : (c.tail + 0) % c.maxlen = c.head := by
      rw [hemp hz]
      simp [Nat.mod_eq_of_lt htl]
    rw [ht]
    simp only [List.cons.injEq, and_true]
    apply getD_set_self
    rw [hlen]
    exact hhd

theorem pop_step_Inv (c : CBuf) (hInv : Inv c) (hpos0 : 0 < c.len) :
    Inv (pop_step c).1 := by
  obtain ⟨hlen, hle, hbnd, hemp, hpos⟩ := hInv
  have hm : 0 < c.maxlen := by omega
  obtain ⟨hhd, htl⟩ := hbnd hm
  by_cases h1 : 1 < c.len
  · rw [pop_step_gt1 c h1, Inv_mk]
    refine ⟨hlen, by omega, fun _ => ⟨hhd, Nat.mod_lt _ hm⟩, by omega, fun _ => ?_⟩
    rw [hpos hpos0]
    have harith : (c.tail + 1) % c.maxlen + (c.len - 1) - 1 = (c.tail + 1) % c.maxlen + (c.len - 2) := by
      omega
    rw [harith, Nat.mod_add_mod]
    congr 1
    omega
  · have hz : c.len = 1 := by omega
    rw [pop_step_le1 c h1, Inv_mk]
    refine ⟨hlen, by omega, fun _ => ⟨hhd, htl⟩, fun _ => ?_, by omega⟩
    rw [hpos hpos0, hz]
    simp [Nat.mod_eq_of_lt htl]

theorem pop_step_toList (c : CBuf) (hInv : Inv c) (hpos0 : 0 < c.len) :
    toList c = (pop_step c).2 :: toList (pop_step c).1 := by
  obtain ⟨hlen, hle, hbnd, hemp, hpos⟩ := hInv
  have hm : 0 < c.maxlen := by omega
  obtain ⟨hhd, htl⟩ := hbnd hm
  by_cases h1 : 1 < c.len
  · rw [pop_step_gt1 c h1]
    unfold toList
    simp only
    obtain ⟨n, hn⟩ : ∃ n, c.len = n + 1 := ⟨c.len - 1, by omega⟩
    rw [hn]
    simp only [Nat.add_sub_cancel, List.range_succ_eq_map, List.map_cons, List.map_map]
    simp only [List.cons.injEq]
    constructor
    · simp [Nat.mod_eq_of_lt htl]
    · apply List.map_congr_left
      intro j hj
      simp only [Function.comp_apply]
      congr 1
      rw [Nat.mod_add_mod]
      congr 1
      omega
  · have hz : c.len = 1 := by omega
    rw [pop_step_le1 c h1]
    unfold toList
    simp only [hz]
    simp only [List.range_succ, List.range_zero, List.map_nil, List.nil_append,
      List.map_cons, Nat.sub_self]
    simp [Nat.mod_eq_of_lt htl]

/-! ## Preservation of the invariant by every operation -/

theorem push_Inv (c : CBuf) (x : Val) (hInv : Inv c) :
    Inv (circular_buffer_push c x).1 := by
  unfold circular_buffer_push
  by_cases hf : circular_buffer_is_full c
  · simp [hf, hInv]
  · simp only [hf, if_neg, Bool.false_eq_true, if_false]
    have hne : c.len ≠ c.maxlen := by
      simpa [circular_buffer_is_full] using hf
    exact push_step_Inv c x hInv (Nat.lt_of_le_of_ne hInv.2.1 hne)

theorem pop_Inv (c : CBuf) (hInv : Inv c) :
    Inv (circular_buffer_pop c).1 := by
  unfold circular_buffer_pop
  by_cases he : circular_buffer_is_empty c
  · simp [he, hInv]
  · simp only [he, if_neg, Bool.false_eq_true, if_false]
    have hne : c.len ≠ 0 := by
      simpa [circular_buffer_is_empty] using he
    exact pop_step_Inv c hInv (Nat.pos_of_ne_zero hne)

theorem empty_Inv (c : CBuf) (hInv : Inv c) :
    Inv (circular_buffer_empty c) := by
  obtain ⟨hlen, hle, hbnd, hemp, hpos⟩ := hInv
  rw [show circular_buffer_empty c = ⟨c.buffer, 0, 0, 0, c.maxlen⟩ from rfl, Inv_mk]
  exact ⟨hlen, by omega, fun hm => ⟨hm, hm⟩, fun _ => rfl, by omega⟩

theorem get_data_loop_Inv (n : Nat) :
    ∀ (c : CBuf) (buf : List Val) (len offset count : Int), c.len ≤ n →
      Inv c → Inv (get_data_loop c buf len offset count).1 := by
  induction n with
  | zero =>
    intro c buf len offset count hle hInv
    rw [get_data_loop]
    have : ¬ (0 < c.len ∧ count + offset < len) := by omega
    rw [dif_neg this]
    exact hInv
  | succ n ih =>
    intro c buf len offset count hle hInv
    rw [get_data_loop]
    by_cases h : 0 < c.len ∧ count + offset < len
    · rw [dif_pos h]
      have hlen1 : (pop_step c).1.len = c.len - 1 := by
        by_cases h1 : 1 < c.len
        · rw [pop_step_gt1 c h1]
        · rw [pop_step_le1 c h1]
      exact ih _ _ _ _ _ (by omega) (pop_step_Inv c hInv h.1)
    · rw [dif_neg h]
      exact hInv

theorem set_data_loop_Inv (n : Nat) :
    ∀ (c : CBuf) (buf : List Val) (len offset count : Int), c.maxlen - c.len ≤ n →
      Inv c → Inv (set_data_loop c buf len offset count).1 := by
  induction n with
  | zero =>
    intro c buf len offset count hle hInv
    rw [set_data_loop]
    have : ¬ (c.len < c.maxlen ∧ count + offset < len) := by omega
    rw [dif_neg this]
    exact hInv
  | succ n ih =>
    intro c buf len offset count hle hInv
    rw [set_data_loop]
    by_cases h : c.len < c.maxlen ∧ count + offset < len
    · rw [dif_pos h]
      have hs : push_step c (buf.getD (offset + count).toNat 0) = push_step c _ := rfl
      have hlen1 : (push_step c (buf.getD (offset + count).toNat 0)).len = c.len + 1 := by
        by_cases h0 : 0 < c.len
        · rw [push_step_pos c _ h0]
        · rw [push_step_zero c _ (by omega)]
          dsimp only
          omega
      have hmax1 : (push_step c (buf.getD (offset + count).toNat 0)).maxlen = c.maxlen := by
        by_cases h0 : 0 < c.len
        · rw [push_step_pos c _ h0]
        · rw [push_step_zero c _ (by omega)]
      refine ih _ _ _ _ _ ?_ (push_step_Inv c _ hInv h.1)
      rw [hlen1, hmax1]
      omega
    · rw [dif_neg h]
      exact hInv

theorem get_data_Inv (S : Nat) (pz : Val → Val) (c : CBuf) (d : List Val)
    (len offset : Int) (hInv : Inv c) :
    Inv (circular_buffer_get_data S pz c d len offset).1 := by
  unfold circular_buffer_get_data
  by_cases hl : len ≤ 0
  · simp [hl, hInv]
  · simp only [hl, if_neg, if_false]
    exact get_data_loop_Inv c.len _ _ _ _ _ le_rfl hInv

theorem set_data_Inv (c : CBuf) (d : List Val) (len offset : Int) (hInv : Inv c) :
    Inv (circular_buffer_set_data c d len offset).1 := by
  unfold circular_buffer_set_data
  by_cases hl : len < 0
  · simp [hl, hInv]
  · simp only [hl, if_neg, if_false]
    exact set_data_loop_Inv (c.maxlen - c.len) _ _ _ _ _ le_rfl hInv

theorem peek_state_eq (S : Nat) (pz : Val → Val) (c : CBuf) (d : List Val)
    (len offset ocb : Int) :
    (circular_buffer_peek S pz c d len offset ocb).1 = c := by
  unfold circular_buffer_peek
  by_cases hl : len ≤ 0
  · simp [hl]
  · simp [hl]

/-- Every reachable state satisfies the structural invariant. -/
theorem Reach_Inv (c : CBuf) (h : Reach c) : Inv c := by
  induction h with
  | init cap mem hm =>
    rw [Inv_mk]
    exact ⟨hm, by omega, fun hc => ⟨hc, hc⟩, fun _ => rfl, by omega⟩
  | push c x _ ih => exact push_Inv c x ih
  | pop c _ ih => exact pop_Inv c ih
  | clear c _ ih => exact empty_Inv c ih
  | drain c S pz d len offset _ ih => exact get_data_Inv S pz c d len offset ih
  | fill c d len offset _ ih => exact set_data_Inv c d len offset ih
  | peekOp c S pz d len offset ocb _ ih => rw [peek_state_eq]; exact ih

/-! ## Claim C4 -/

/-- C4: every buffer state reachable from a successful Initialize by any
sequence of Push, Pop, Clear, DrainInto, FillFrom, Peek, IsEmpty and IsFull
operations satisfies 0 <= len <= maxlen; head == tail when len == 0; and
head == (tail + len - 1) mod maxlen with head and tail in [0, maxlen) when
len > 0.  (IsEmpty/IsFull are pure queries; `Reach` covers every
state-changing operation.) -/
theorem C4_reachable_invariant (c : CBuf) (h : Reach c) :
    c.len ≤ c.maxlen ∧ (c.len = 0 → c.head = c.tail) ∧
      (0 < c.len → c.head = (c.tail + c.len - 1) % c.maxlen ∧
        c.head < c.maxlen ∧ c.tail < c.maxlen) := by
  obtain ⟨hlen, hle, hbnd, hemp, hpos⟩ := Reach_Inv c h
  exact ⟨hle, hemp, fun hp =>
    ⟨hpos hp, (hbnd (by omega)).1, (hbnd (by omega)).2⟩⟩

/-- Witness for C4 at the concrete reachable state obtained by pushing 5
into a freshly initialized capacity-2 buffer. -/
theorem C4_reachable_invariant_witness :
    (circular_buffer_push ⟨[0, 0], 0, 0, 0, 2⟩ 5).1.len ≤
        (circular_buffer_push ⟨[0, 0], 0, 0, 0, 2⟩ 5).1.maxlen ∧
      ((circular_buffer_push ⟨[0, 0], 0, 0, 0, 2⟩ 5).1.len = 0 →
        (circular_buffer_push ⟨[0, 0], 0, 0, 0, 2⟩ 5).1.head =
          (circular_buffer_push ⟨[0, 0], 0, 0, 0, 2⟩ 5).1.tail) ∧
      (0 < (circular_buffer_push ⟨[0, 0], 0, 0, 0, 2⟩ 5).1.len →
        (circular_buffer_push ⟨[0, 0], 0, 0, 0, 2⟩ 5).1.head =
            ((circular_buffer_push ⟨[0, 0], 0, 0, 0, 2⟩ 5).1.tail +
                (circular_buffer_push ⟨[0, 0], 0, 0, 0, 2⟩ 5).1.len - 1) %
              (circular_buffer_push ⟨[0, 0], 0, 0, 0, 2⟩ 5).1.maxlen ∧
          (circular_buffer_push ⟨[0, 0], 0, 0, 0, 2⟩ 5).1.head <
              (circular_buffer_push ⟨[0, 0], 0, 0, 0, 2⟩ 5).1.maxlen ∧
          (circular_buffer_push ⟨[0, 0], 0, 0, 0, 2⟩ 5).1.tail <
              (circular_buffer_push ⟨[0, 0], 0, 0, 0, 2⟩ 5).1.maxlen) :=
  C4_reachable_invariant _ (Reach.push _ 5 (Reach.init 2 [0, 0] rfl))

/-! ## Claim C2 -/

/-- C2: for every initialized buffer, Push fails with the Full error iff
len == maxlen, a failed call leaves the buffer unchanged, and otherwise
Push advances head to (head+1) mod maxlen only when len > 0, stores the
element at the (possibly advanced) head, increments len, and the newest
element ends up at head. -/
theorem C2_push_spec (c : CBuf) (x : Val) (hInv : Inv c) :
    ((circular_buffer_push c x).2 = .error .full ↔ c.len = c.maxlen) ∧
    (c.len = c.maxlen → (circular_buffer_push c x).1 = c) ∧
    (c.len ≠ c.maxlen →
      (circular_buffer_push c x).2 = .ok () ∧
      (circular_buffer_push c x).1 =
        ⟨c.buffer.set (if 0 < c.len then (c.head + 1) % c.maxlen else c.head) x,
          (if 0 < c.len then (c.head + 1) % c.maxlen else c.head),
          c.tail, c.len + 1, c.maxlen⟩ ∧
      (circular_buffer_push c x).1.buffer.getD (circular_buffer_push c x).1.head 0 = x) := by
  obtain ⟨hlen, hle, hbnd, hemp, hpos⟩ := hInv
  by_cases hf : c.len = c.maxlen
  · have hb : circular_buffer_is_full c = true := by
      simp [circular_buffer_is_full, hf]
    unfold circular_buffer_push
    rw [hb]
    simp [hf]
  · have hb : circular_buffer_is_full c = false := by
      simp [circular_buffer_is_full, hf]
    have hm : 0 < c.maxlen := by omega
    unfold circular_buffer_push
    simp only [hb, Bool.false_eq_true, if_false]
    refine And.intro (by simp [hf]) (And.intro (fun h => absurd h hf) (fun _ => ?_))
    refine ⟨trivial, ?_, ?_⟩
    · by_cases h0 : 0 < c.len
      · rw [push_step_pos c x h0]
        simp [h0]
      · rw [push_step_zero c x (by omega)]
        simp [h0]
        omega
    · by_cases h0 : 0 < c.len
      · rw [push_step_pos c x h0]
        dsimp only
        apply getD_set_self
        rw [hlen]
        exact Nat.mod_lt _ hm
      · rw [push_step_zero c x (by omega)]
        dsimp only
        apply getD_set_self
        rw [hlen]
        exact (hbnd hm).1

/-- Witness for C2 at a concrete half-full buffer. -/
theorem C2_push_spec_witness :
    Inv ⟨[9, 0], 0, 0, 1, 2⟩ ∧
    (((circular_buffer_push ⟨[9, 0], 0, 0, 1, 2⟩ 7).2 = .error .full ↔
        (⟨[9, 0], 0, 0, 1, 2⟩ : CBuf).len = (⟨[9, 0], 0, 0, 1, 2⟩ : CBuf).maxlen) ∧
      ((⟨[9, 0], 0, 0, 1, 2⟩ : CBuf).len = (⟨[9, 0], 0, 0, 1, 2⟩ : CBuf).maxlen →
        (circular_buffer_push ⟨[9, 0], 0, 0, 1, 2⟩ 7).1 = ⟨[9, 0], 0, 0, 1, 2⟩) ∧
      ((⟨[9, 0], 0, 0, 1, 2⟩ : CBuf).len ≠ (⟨[9, 0], 0, 0, 1, 2⟩ : CBuf).maxlen →
        (circular_buffer_push ⟨[9, 0], 0, 0, 1, 2⟩ 7).2 = .ok () ∧
        (circular_buffer_push ⟨[9, 0], 0, 0, 1, 2⟩ 7).1 =
          ⟨(⟨[9, 0], 0, 0, 1, 2⟩ : CBuf).buffer.set
              (if 0 < (⟨[9, 0], 0, 0, 1, 2⟩ : CBuf).len then
                ((⟨[9, 0], 0, 0, 1, 2⟩ : CBuf).head + 1) % (⟨[9, 0], 0, 0, 1, 2⟩ : CBuf).maxlen
              else (⟨[9, 0], 0, 0, 1, 2⟩ : CBuf).head) 7,
            (if 0 < (⟨[9, 0], 0, 0, 1, 2⟩ : CBuf).len then
              ((⟨[9, 0], 0, 0, 1, 2⟩ : CBuf).head + 1) % (⟨[9, 0], 0, 0, 1, 2⟩ : CBuf).maxlen
            else (⟨[9, 0], 0, 0, 1, 2⟩ : CBuf).head),
            (⟨[9, 0], 0, 0, 1, 2⟩ : CBuf).tail, (⟨[9, 0], 0, 0, 1, 2⟩ : CBuf).len + 1,
            (⟨[9, 0], 0, 0, 1, 2⟩ : CBuf).maxlen⟩ ∧
        (circular_buffer_push ⟨[9, 0], 0, 0, 1, 2⟩ 7).1.buffer.getD
          (circular_buffer_push ⟨[9, 0], 0, 0, 1, 2⟩ 7).1.head 0 = 7)) :=
  ⟨by decide, C2_push_spec ⟨[9, 0], 0, 0, 1, 2⟩ 7 (by decide)⟩

/-! ## Claim C3 -/

/-- C3: for every initialized buffer (the non-NULL-arguments path of the C
function), Pop fails with the empty error (EINVAL) iff len == 0, a failed
call leaves the buffer unchanged, and otherwise Pop returns storage[tail]
(which is the oldest element, the front of `toList`), advances tail to
(tail+1) mod maxlen only if len > 1, and decrements len. -/
theorem C3_pop_spec (c : CBuf) (hInv : Inv c) :
    ((circular_buffer_pop c).2 = .error .einval ↔ c.len = 0) ∧
    (c.len = 0 → (circular_buffer_pop c).1 = c) ∧
    (0 < c.len →
      (circular_buffer_pop c).2 = .ok (c.buffer.getD c.tail 0) ∧
      c.buffer.getD c.tail 0 = (toList c).getD 0 0 ∧
      (circular_buffer_pop c).1 =
        ⟨c.buffer, c.head,
          (if 1 < c.len then (c.tail + 1) % c.maxlen else c.tail),
          c.len - 1, c.maxlen⟩) := by
  by_cases he : c.len = 0
  · have hb : circular_buffer_is_empty c = true := by
      simp [circular_buffer_is_empty, he]
    unfold circular_buffer_pop
    rw [hb]
    simp [he]
  · have hb : circular_buffer_is_empty c = false := by
      simp [circular_buffer_is_empty, he]
    have hp : 0 < c.len := Nat.pos_of_ne_zero he
    have hfront : (toList c).getD 0 0 = c.buffer.getD c.tail 0 := by
      rw [pop_step_toList c hInv hp]
      unfold pop_step
      simp
    unfold circular_buffer_pop
    simp only [hb, Bool.false_eq_true, if_false]
    refine And.intro (by simp [he]) (And.intro (fun h => absurd h he) (fun _ => ?_))
    refine ⟨?_, hfront.symm, ?_⟩
    · by_cases h1 : 1 < c.len
      · rw [pop_step_gt1 c h1]
      · rw [pop_step_le1 c h1]
    · by_cases h1 : 1 < c.len
      · rw [pop_step_gt1 c h1]
        simp [h1]
      · rw [pop_step_le1 c h1]
        simp [h1]

/-- Witness for C3 at a concrete two-element buffer. -/
theorem C3_pop_spec_witness :
    Inv ⟨[4, 6], 1, 0, 2, 2⟩ ∧
    (((circular_buffer_pop ⟨[4, 6], 1, 0, 2, 2⟩).2 = .error .einval ↔
        (⟨[4, 6], 1, 0, 2, 2⟩ : CBuf).len = 0) ∧
      ((⟨[4, 6], 1, 0, 2, 2⟩ : CBuf).len = 0 →
        (circular_buffer_pop ⟨[4, 6], 1, 0, 2, 2⟩).1 = ⟨[4, 6], 1, 0, 2, 2⟩) ∧
      (0 < (⟨[4, 6], 1, 0, 2, 2⟩ : CBuf).len →
        (circular_buffer_pop ⟨[4, 6], 1, 0, 2, 2⟩).2 =
          .ok ((⟨[4, 6], 1, 0, 2, 2⟩ : CBuf).buffer.getD (⟨[4, 6], 1, 0, 2, 2⟩ : CBuf).tail 0) ∧
        (⟨[4, 6], 1, 0, 2, 2⟩ : CBuf).buffer.getD (⟨[4, 6], 1, 0, 2, 2⟩ : CBuf).tail 0 =
          (toList ⟨[4, 6], 1, 0, 2, 2⟩).getD 0 0 ∧
        (circular_buffer_pop ⟨[4, 6], 1, 0, 2, 2⟩).1 =
          ⟨(⟨[4, 6], 1, 0, 2, 2⟩ : CBuf).buffer, (⟨[4, 6], 1, 0, 2, 2⟩ : CBuf).head,
            (if 1 < (⟨[4, 6], 1, 0, 2, 2⟩ : CBuf).len then
              ((⟨[4, 6], 1, 0, 2, 2⟩ : CBuf).tail + 1) % (⟨[4, 6], 1, 0, 2, 2⟩ : CBuf).maxlen
            else (⟨[4, 6], 1, 0, 2, 2⟩ : CBuf).tail),
            (⟨[4, 6], 1, 0, 2, 2⟩ : CBuf).len - 1, (⟨[4, 6], 1, 0, 2, 2⟩ : CBuf).maxlen⟩)) :=
  ⟨by decide, C3_pop_spec ⟨[4, 6], 1, 0, 2, 2⟩ (by decide)⟩

/-! ## Claim C9 -/

/-- C9: for every buffer, every platform (element size / partial-slot
oracle) and all argument values, Peek never mutates the buffer: head,
tail, len, maxlen and the storage contents are the same after the call,
whether it succeeds or fails. -/
theorem C9_peek_no_mutation (S : Nat) (pz : Val → Val) (c : CBuf) (d : List Val)
    (len offset ocb : Int) :
    (circular_buffer_peek S pz c d len offset ocb).1.head = c.head ∧
    (circular_buffer_peek S pz c d len offset ocb).1.tail = c.tail ∧
    (circular_buffer_peek S pz c d len offset ocb).1.len = c.len ∧
    (circular_buffer_peek S pz c d len offset ocb).1.maxlen = c.maxlen ∧
    (circular_buffer_peek S pz c d len offset ocb).1.buffer = c.buffer := by
  rw [peek_state_eq]
  exact ⟨rfl, rfl, rfl, rfl, rfl⟩

/-! ## Claim C10 -/

/-- C10: two Peek calls differing only in the `offset_cb` argument return
the same count and leave the destination identical (and the buffer state
too): the parameter is never read by the code. -/
theorem C10_peek_ignores_offset_cb (S : Nat) (pz : Val → Val) (c : CBuf) (d : List Val)
    (len offset a b : Int) :
    (circular_buffer_peek S pz c d len offset a).2.1 =
      (circular_buffer_peek S pz c d len offset b).2.1 ∧
    (circular_buffer_peek S pz c d len offset a).2.2 =
      (circular_buffer_peek S pz c d len offset b).2.2 :=
  ⟨rfl, rfl⟩

/-! ## Claim C6 -/

/-- C6 counterexample: initialization with capacity 0 (and a succeeding
allocation) returns success, not the InvalidArgument error the claim
requires for capacity <= 0: the C code never validates `max_len`. -/
theorem C6_counterexample :
    circular_buffer_init (some ()) 0 true [] = .ok ⟨[], 0, 0, 0, 0⟩ ∧
    circular_buffer_init (some ()) 0 true [] ≠ .error .einval := by
  constructor
  · rfl
  · intro h
    simp [circular_buffer_init] at h

/-- C6 amended: Initialize fails with InvalidArgument when the receiver is
null (capacity is never validated, so capacity <= 0 does not cause
InvalidArgument), fails with OutOfMemory when allocation fails, and on
success (for capacity >= 0, with the allocator returning a block of
`capacity` slots) sets head = tail = len = 0 and maxlen = capacity with
storage of exactly capacity slots. -/
theorem C6_init_spec (c_buf : Option Unit) (max_len : Int) (allocOk : Bool)
    (mem : List Val) (hmem : mem.length = max_len.toNat) (hnn : 0 ≤ max_len) :
    (circular_buffer_init c_buf max_len allocOk mem = .error .einval ↔ c_buf = none) ∧
    (c_buf ≠ none → allocOk = false →
      circular_buffer_init c_buf max_len allocOk mem = .error .enomem) ∧
    (c_buf ≠ none → allocOk = true →
      circular_buffer_init c_buf max_len allocOk mem = .ok ⟨mem, 0, 0, 0, max_len.toNat⟩ ∧
      mem.length = max_len.toNat ∧ ((max_len.toNat : Int) = max_len)) := by
  unfold circular_buffer_init
  rcases c_buf with _ | u
  · simp
  · rcases allocOk with _ | _
    · simp
    · simp [hmem]
      omega

/-- Witness for C6 at receiver present, capacity 3 and a successful
allocation. -/
theorem C6_init_spec_witness :
    ([5, 6, 7] : List Val).length = (3 : Int).toNat ∧ (0 : Int) ≤ 3 ∧
    ((circular_buffer_init (some ()) 3 true [5, 6, 7] = .error .einval ↔ (some ()) = none) ∧
      ((some ()) ≠ none → true = false →
        circular_buffer_init (some ()) 3 true [5, 6, 7] = .error .enomem) ∧
      ((some ()) ≠ none → true = true →
        circular_buffer_init (some ()) 3 true [5, 6, 7] = .ok ⟨[5, 6, 7], 0, 0, 0, (3 : Int).toNat⟩ ∧
        ([5, 6, 7] : List Val).length = (3 : Int).toNat ∧ (((3 : Int).toNat : Int) = 3))) :=
  ⟨rfl, by decide, C6_init_spec (some ()) 3 true [5, 6, 7] rfl (by decide)⟩

/-! ## Claim C1: FIFO behaviour of arbitrary Push/Pop sequences -/

theorem push_step_len (c : CBuf) (x : Val) : (push_step c x).len = c.len + 1 := by
  by_cases h0 : 0 < c.len
  · rw [push_step_pos c x h0]
  · rw [push_step_zero c x (by omega)]
    dsimp only
    omega

theorem push_step_maxlen (c : CBuf) (x : Val) : (push_step c x).maxlen = c.maxlen := by
  by_cases h0 : 0 < c.len
  · rw [push_step_pos c x h0]
  · rw [push_step_zero c x (by omega)]

theorem pop_step_len (c : CBuf) : (pop_step c).1.len = c.len - 1 := by
  by_cases h1 : 1 < c.len
  · rw [pop_step_gt1 c h1]
  · rw [pop_step_le1 c h1]

theorem toList_length (c : CBuf) : (toList c).length = c.len := by
  simp [toList]

theorem push_eq_full (c : CBuf) (x : Val) (h : c.len = c.maxlen) :
    circular_buffer_push c x = (c, Except.error Err.full) := by
  unfold circular_buffer_push
  simp [circular_buffer_is_full, h]

theorem push_eq_ok (c : CBuf) (x : Val) (h : c.len ≠ c.maxlen) :
    circular_buffer_push c x = (push_step c x, Except.ok ()) := by
  unfold circular_buffer_push
  simp [circular_buffer_is_full, h]

theorem pop_eq_empty (c : CBuf) (h : c.len = 0) :
    circular_buffer_pop c = (c, Except.error Err.einval) := by
  unfold circular_buffer_pop
  simp [circular_buffer_is_empty, h]

theorem pop_eq_ok (c : CBuf) (h : c.len ≠ 0) :
    circular_buffer_pop c = ((pop_step c).1, Except.ok (pop_step c).2) := by
  unfold circular_buffer_pop
  simp [circular_buffer_is_empty, h]

/-- A single client request: push a value, or pop. -/
inductive Op where
  | push : Val → Op
  | pop : Op

/-- Run a sequence of requests against the buffer, recording the values of
the successful pushes and the values returned by the successful pops.  A
request whose precondition fails leaves the state unchanged (as the C
functions do) and is not recorded. -/
def runOps (c : CBuf) : List Op → CBuf × List Val × List Val
  | [] => (c, [], [])
  | Op.push x :: ops =>
      let r := circular_buffer_push c x
      let rest := runOps r.1 ops
      match r.2 with
      | .ok _ => (rest.1, x :: rest.2.1, rest.2.2)
      | .error _ => rest
  | Op.pop :: ops =>
      let r := circular_buffer_pop c
      let rest := runOps r.1 ops
      match r.2 with
      | .ok v => (rest.1, rest.2.1, v :: rest.2.2)
      | .error _ => rest

/-- Conservation: over any run, the popped values followed by the remaining
contents equal the initial contents followed by the pushed values. -/
theorem runOps_conserve (ops : List Op) : ∀ c : CBuf, Inv c →
    Inv (runOps c ops).1 ∧
    (runOps c ops).2.2 ++ toList (runOps c ops).1 = toList c ++ (runOps c ops).2.1 := by
  induction ops with
  | nil =>
    intro c hInv
    exact ⟨hInv, by simp [runOps]⟩
  | cons op ops ih =>
    intro c hInv
    cases op with
    | push x =>
      by_cases hf : c.len = c.maxlen
      · have hstep : runOps c (Op.push x :: ops) = runOps c ops := by
          simp only [runOps, push_eq_full c x hf]
        rw [hstep]
        exact ih c hInv
      · have hlt : c.len < c.maxlen := Nat.lt_of_le_of_ne hInv.2.1 hf
        have hstep : runOps c (Op.push x :: ops) =
            ((runOps (push_step c x) ops).1,
              x :: (runOps (push_step c x) ops).2.1,
              (runOps (push_step c x) ops).2.2) := by
          simp only [runOps, push_eq_ok c x hf]
        rw [hstep]
        obtain ⟨ih1, ih2⟩ := ih (push_step c x) (push_step_Inv c x hInv hlt)
        refine ⟨ih1, ?_⟩
        dsimp only
        rw [ih2, push_step_toList c x hInv hlt]
        simp
    | pop =>
      by_cases he : c.len = 0
      · have hstep : runOps c (Op.pop :: ops) = runOps c ops := by
          simp only [runOps, pop_eq_empty c he]
        rw [hstep]
        exact ih c hInv
      · have hp : 0 < c.len := Nat.pos_of_ne_zero he
        have hstep : runOps c (Op.pop :: ops) =
            ((runOps (pop_step c).1 ops).1,
              (runOps (pop_step c).1 ops).2.1,
              (pop_step c).2 :: (runOps (pop_step c).1 ops).2.2) := by
          simp only [runOps, pop_eq_ok c he]
        rw [hstep]
        obtain ⟨ih1, ih2⟩ := ih (pop_step c).1 (pop_step_Inv c hInv hp)
        refine ⟨ih1, ?_⟩
        dsimp only
        rw [List.cons_append, ih2, pop_step_toList c hInv hp]
        simp

/-- Elements of a left factor of an append are read unchanged. -/
theorem getD_append_left (l1 l2 : List Val) (k : Nat) (h : k < l1.length) :
    (l1 ++ l2).getD k 0 = l1.getD k 0 := by
  rw [List.getD_eq_getElem?_getD, List.getD_eq_getElem?_getD,
    List.getElem?_append, if_pos h]

/-- Running only pushes that all fit appends exactly the pushed list. -/
theorem runOps_pushes (l : List Val) : ∀ c : CBuf, Inv c →
    c.len + l.length ≤ c.maxlen →
    (runOps c (l.map Op.push)).2.1 = l ∧
    (runOps c (l.map Op.push)).2.2 = [] ∧
    Inv (runOps c (l.map Op.push)).1 ∧
    toList (runOps c (l.map Op.push)).1 = toList c ++ l ∧
    (runOps c (l.map Op.push)).1.len = c.len + l.length ∧
    (runOps c (l.map Op.push)).1.maxlen = c.maxlen := by
  induction l with
  | nil =>
    intro c hInv _
    refine ⟨rfl, rfl, hInv, by simp [runOps], by simp [runOps], by simp [runOps]⟩
  | cons x l ih =>
    intro c hInv hfit
    have hne : c.len ≠ c.maxlen := by
      simp only [List.length_cons] at hfit
      omega
    have hlt : c.len < c.maxlen := Nat.lt_of_le_of_ne hInv.2.1 hne
    have hstep : runOps c ((x :: l).map Op.push) =
        ((runOps (push_step c x) (l.map Op.push)).1,
          x :: (runOps (push_step c x) (l.map Op.push)).2.1,
          (runOps (push_step c x) (l.map Op.push)).2.2) := by
      rw [List.map_cons]
      simp only [runOps, push_eq_ok c x hne]
    have hfit1 : (push_step c x).len + l.length ≤ (push_step c x).maxlen := by
      rw [push_step_len, push_step_maxlen]
      simp only [List.length_cons] at hfit
      omega
    obtain ⟨ih1, ih2, ih3, ih4, ih5, ih6⟩ :=
      ih (push_step c x) (push_step_Inv c x hInv hlt) hfit1
    rw [hstep]
    refine ⟨by rw [ih1], ih2, ih3, ?_, ?_, ?_⟩
    · dsimp only
      rw [ih4, push_step_toList c x hInv hlt]
      simp
    · dsimp only
      rw [ih5, push_step_len]
      simp only [List.length_cons]
      omega
    · dsimp only
      rw [ih6, push_step_maxlen]

/-- Running `n <= len` pops returns the `n` oldest elements in order. -/
theorem runOps_pops (n : Nat) : ∀ c : CBuf, Inv c → n ≤ c.len →
    (runOps c (List.replicate n Op.pop)).2.1 = [] ∧
    (runOps c (List.replicate n Op.pop)).2.2 = (toList c).take n ∧
    Inv (runOps c (List.replicate n Op.pop)).1 ∧
    toList (runOps c (List.replicate n Op.pop)).1 = (toList c).drop n ∧
    (runOps c (List.replicate n Op.pop)).1.len = c.len - n := by
  induction n with
  | zero =>
    intro c hInv _
    exact ⟨rfl, by simp [runOps], hInv, by simp [runOps], by simp [runOps]⟩
  | succ n ih =>
    intro c hInv hle
    have hne : c.len ≠ 0 := by omega
    have hp : 0 < c.len := by omega
    have hstep : runOps c (List.replicate (n + 1) Op.pop) =
        ((runOps (pop_step c).1 (List.replicate n Op.pop)).1,
          (runOps (pop_step c).1 (List.replicate n Op.pop)).2.1,
          (pop_step c).2 :: (runOps (pop_step c).1 (List.replicate n Op.pop)).2.2) := by
      rw [List.replicate_succ]
      simp only [runOps, pop_eq_ok c hne]
    have hle1 : n ≤ (pop_step c).1.len := by
      rw [pop_step_len]
      omega
    obtain ⟨ih1, ih2, ih3, ih4, ih5⟩ := ih (pop_step c).1 (pop_step_Inv c hInv hp) hle1
    have hview := pop_step_toList c hInv hp
    rw [hstep]
    refine ⟨ih1, ?_, ih3, ?_, ?_⟩
    · dsimp only
      rw [ih2, hview]
      simp
    · dsimp only
      rw [ih4, hview]
      simp
    · dsimp only
      rw [ih5, pop_step_len]
      omega

/-- Runs compose over concatenation of the request lists. -/
theorem runOps_append (ops1 ops2 : List Op) : ∀ c : CBuf,
    runOps c (ops1 ++ ops2) =
      ((runOps (runOps c ops1).1 ops2).1,
        (runOps c ops1).2.1 ++ (runOps (runOps c ops1).1 ops2).2.1,
        (runOps c ops1).2.2 ++ (runOps (runOps c ops1).1 ops2).2.2) := by
  induction ops1 with
  | nil =>
    intro c
    simp [runOps]
  | cons op ops1 ih =>
    intro c
    cases op with
    | push x =>
      simp only [List.cons_append, runOps]
      rcases hr : (circular_buffer_push c x).2 with e | u
      · simp [hr, ih]
      · simp [hr, ih]
    | pop =>
      simp only [List.cons_append, runOps]
      rcases hr : (circular_buffer_pop c).2 with e | v
      · simp [hr, ih]
      · simp [hr, ih]

/-- C1: starting from a freshly initialized buffer of any capacity >= 1,
for an arbitrary sequence of Push/Pop requests (each succeeding exactly
under its precondition: Push when not full, Pop when not empty), the k-th
successful Pop returns the value of the k-th successful Push; and pushing
`cap` elements then popping `cap` times returns the elements in push order
and leaves the buffer empty. -/
theorem C1_fifo (cap : Nat) (mem : List Val) (hcap : 1 ≤ cap)
    (hmem : mem.length = cap) :
    (∀ (ops : List Op) (k : Nat),
        k < ((runOps ⟨mem, 0, 0, 0, cap⟩ ops).2.2).length →
        ((runOps ⟨mem, 0, 0, 0, cap⟩ ops).2.2).getD k 0 =
          ((runOps ⟨mem, 0, 0, 0, cap⟩ ops).2.1).getD k 0) ∧
    (∀ l : List Val, l.length = cap →
        (runOps ⟨mem, 0, 0, 0, cap⟩ (l.map Op.push ++ List.replicate cap Op.pop)).2.1 = l ∧
        (runOps ⟨mem, 0, 0, 0, cap⟩ (l.map Op.push ++ List.replicate cap Op.pop)).2.2 = l ∧
        circular_buffer_is_empty
          (runOps ⟨mem, 0, 0, 0, cap⟩ (l.map Op.push ++ List.replicate cap Op.pop)).1 = true) := by
  have hInv0 : Inv ⟨mem, 0, 0, 0, cap⟩ := by
    rw [Inv_mk]
    exact ⟨hmem, by omega, fun hc => ⟨hc, hc⟩, fun _ => rfl, by omega⟩
  have htl0 : toList ⟨mem, 0, 0, 0, cap⟩ = [] := by
    rw [toList_mk]
    simp
  constructor
  · intro ops k hk
    obtain ⟨_, hcons⟩ := runOps_conserve ops ⟨mem, 0, 0, 0, cap⟩ hInv0
    rw [htl0, List.nil_append] at hcons
    rw [← hcons, getD_append_left _ _ k hk]
  · intro l hl
    obtain ⟨p1, p2, p3, p4, p5, p6⟩ :=
      runOps_pushes l ⟨mem, 0, 0, 0, cap⟩ hInv0 (by simp [hl])
    obtain ⟨q1, q2, q3, q4, q5⟩ :=
      runOps_pops cap (runOps ⟨mem, 0, 0, 0, cap⟩ (l.map Op.push)).1 p3
        (by rw [p5]; simp [hl])
    rw [runOps_append (l.map Op.push) (List.replicate cap Op.pop)]
    dsimp only
    refine ⟨?_, ?_, ?_⟩
    · rw [p1, q1, List.append_nil]
    · rw [p2, q2, List.nil_append, p4, htl0, List.nil_append, ← hl, List.take_length]
    · simp only [circular_buffer_is_empty]
      rw [q5, p5]
      simp [hl]

/-- Witness for C1 at capacity 2: the run push 5, push 7, push 9 (fails:
full), pop, pop pops 5 then 7; and the round trip for [5, 7]. -/
theorem C1_fifo_witness :
    (((runOps ⟨[0, 0], 0, 0, 0, 2⟩ [Op.push 5, Op.push 7, Op.push 9, Op.pop, Op.pop]).2.2).getD 0 0 =
      ((runOps ⟨[0, 0], 0, 0, 0, 2⟩ [Op.push 5, Op.push 7, Op.push 9, Op.pop, Op.pop]).2.1).getD 0 0) ∧
    ((runOps ⟨[0, 0], 0, 0, 0, 2⟩ ([5, 7].map Op.push ++ List.replicate 2 Op.pop)).2.1 = [5, 7] ∧
      (runOps ⟨[0, 0], 0, 0, 0, 2⟩ ([5, 7].map Op.push ++ List.replicate 2 Op.pop)).2.2 = [5, 7] ∧
      circular_buffer_is_empty
        (runOps ⟨[0, 0], 0, 0, 0, 2⟩ ([5, 7].map Op.push ++ List.replicate 2 Op.pop)).1 = true) :=
  ⟨(C1_fifo 2 [0, 0] (by decide) rfl).1 [Op.push 5, Op.push 7, Op.push 9, Op.pop, Op.pop] 0
      (by decide),
    (C1_fifo 2 [0, 0] (by decide) rfl).2 [5, 7] rfl⟩

/-! ## Claim C7: DrainInto (`circular_buffer_get_data`) -/

/-- Repeated `pop_step`, collecting the popped elements oldest first. -/
def popN (c : CBuf) : Nat → CBuf × List Val
  | 0 => (c, [])
  | n + 1 =>
      let r := pop_step c
      let rest := popN r.1 n
      (rest.1, r.2 :: rest.2)

/-- Write the values sequentially into the list starting at index `k`. -/
def writeAt (buf : List Val) (k : Nat) : List Val → List Val
  | [] => buf
  | v :: vs => writeAt (buf.set k v) (k + 1) vs

/-- `n` pops through the public Pop operation (all succeeding, since
`n <= len`) produce exactly `popN`. -/
theorem runOps_popN (n : Nat) : ∀ c : CBuf, n ≤ c.len →
    runOps c (List.replicate n Op.pop) = ((popN c n).1, [], (popN c n).2) := by
  induction n with
  | zero =>
    intro c _
    simp [runOps, popN]
  | succ n ih =>
    intro c hn
    have hne : c.len ≠ 0 := by omega
    rw [List.replicate_succ]
    simp only [runOps, pop_eq_ok c hne]
    rw [ih (pop_step c).1 (by rw [pop_step_len]; omega)]
    simp [popN]

/-- Closed form of the drain loop: it performs
`min len (capacity - offset - count)` pop steps, writes the popped values
at consecutive destination indices from `offset + count`, and returns the
incremented counter. -/
theorem get_data_loop_spec (n : Nat) : ∀ (c : CBuf) (buf : List Val) (len offset count : Int),
    c.len ≤ n → 0 ≤ offset → 0 ≤ count →
    get_data_loop c buf len offset count =
      ((popN c (min c.len (len - offset - count).toNat)).1,
        writeAt buf (offset + count).toNat (popN c (min c.len (len - offset - count).toNat)).2,
        count + (min c.len (len - offset - count).toNat : Nat)) := by
  induction n with
  | zero =>
    intro c buf len offset count hn ho hc
    have hz : c.len = 0 := by omega
    rw [get_data_loop, dif_neg (by omega)]
    simp [hz, popN, writeAt]
  | succ n ih =>
    intro c buf len offset count hn ho hc
    by_cases hcond : 0 < c.len ∧ count + offset < len
    · rw [get_data_loop, dif_pos hcond]
      have hlen1 : (pop_step c).1.len = c.len - 1 := pop_step_len c
      rw [ih (pop_step c).1 _ len offset (count + 1) (by omega) ho (by omega)]
      have hm : min c.len (len - offset - count).toNat
          = min (pop_step c).1.len (len - offset - (count + 1)).toNat + 1 := by
        rw [hlen1]
        omega
      have hidx : (offset + (count + 1)).toNat = (offset + count).toNat + 1 := by
        omega
      have hcnt : count + ((min (pop_step c).1.len (len - offset - (count + 1)).toNat + 1 : Nat) : Int)
          = (count + 1) + ((min (pop_step c).1.len (len - offset - (count + 1)).toNat : Nat) : Int) := by
        push_cast
        ring
      rw [hm, hcnt]
      simp only [popN, writeAt]
      rw [hidx]
    · rw [get_data_loop, dif_neg hcond]
      have hm0 : min c.len (len - offset - count).toNat = 0 := by omega
      simp [hm0, popN, writeAt]

/-- Closed form of `circular_buffer_get_data` on the success path, for
any platform oracles: the destination is first hit by the byte-count
memset, then the min(len, capacity - offset) oldest elements are popped
into destination[offset...], and that count is returned; the popped
values and final buffer state coincide with that many successful Pops,
and the InvalidArgument failure happens iff capacity <= 0 or the
buffer/destination pointer is NULL, leaving both untouched. -/
theorem get_data_spec (S : Nat) (pz : Val → Val) (c : CBuf) (dest : List Val)
    (len offset : Int) (hlen : 0 < len) (ho : 0 ≤ offset) :
    (circular_buffer_get_data S pz c dest len offset =
      ((popN c (min c.len (len - offset).toNat)).1,
        writeAt (memset_zero S pz dest len.toNat) offset.toNat
          (popN c (min c.len (len - offset).toNat)).2,
        .ok ((min c.len (len - offset).toNat : Nat) : Int))) ∧
    (runOps c (List.replicate (min c.len (len - offset).toNat) Op.pop) =
      ((popN c (min c.len (len - offset).toNat)).1, [],
        (popN c (min c.len (len - offset).toNat)).2)) ∧
    (∀ (S2 : Nat) (pz2 : Val → Val) (co : Option CBuf) (dd : Option (List Val)) (l o : Int),
      ((circular_buffer_get_data_opt S2 pz2 co dd l o).2.2 = .error .einval ↔
        (co = none ∨ dd = none ∨ l ≤ 0)) ∧
      ((circular_buffer_get_data_opt S2 pz2 co dd l o).2.2 = .error .einval →
        (circular_buffer_get_data_opt S2 pz2 co dd l o).1 = co ∧
        (circular_buffer_get_data_opt S2 pz2 co dd l o).2.1 = dd)) := by
  refine ⟨?_, ?_, ?_⟩
  · unfold circular_buffer_get_data
    rw [if_neg (by omega)]
    rw [get_data_loop_spec c.len c _ len offset 0 le_rfl ho le_rfl]
    have h1 : len - offset - 0 = len - offset := by ring
    have h2 : (offset + 0).toNat = offset.toNat := by omega
    have h3 : (0 : Int) + ((min c.len (len - offset).toNat : Nat) : Int)
        = ((min c.len (len - offset).toNat : Nat) : Int) := by ring
    rw [h1, h2, h3]
  · exact runOps_popN _ c (Nat.min_le_left _ _)
  · intro S2 pz2 co dd l o
    rcases co with _ | c2
    · simp [circular_buffer_get_data_opt]
    · rcases dd with _ | d2
      · simp [circular_buffer_get_data_opt]
      · by_cases hl : l ≤ 0
        · simp [circular_buffer_get_data_opt, circular_buffer_get_data, hl]
        · simp [circular_buffer_get_data_opt, circular_buffer_get_data, hl]

/-- C7: the code violates the claim's zero-fill guarantee (and its own
NOTE comment, which promises to set all `len` members of the destination
to 0): `memset(data_buf, 0, len)` zeroes `len` BYTES, not `len` elements.
On an LP64 platform (S = sizeof(void *) = 8), draining an empty
capacity-1 buffer into the garbage two-slot destination [5, 5] with
capacity 2 and offset 0 moves 0 elements, so per the claim every
destination slot should read 0 afterwards — but only the first 2 bytes
are cleared: slot 1 (bytes 8..15) is untouched and still reads 5,
whatever value the partially-overwritten slot 0 takes. -/
theorem C7_memset_byte_bug (pz : Val → Val) :
    (circular_buffer_get_data 8 pz ⟨[0], 0, 0, 0, 1⟩ [5, 5] 2 0).2.1 = [pz 5, 5] ∧
    (circular_buffer_get_data 8 pz ⟨[0], 0, 0, 0, 1⟩ [5, 5] 2 0).2.2 = .ok 0 ∧
    (circular_buffer_get_data 8 pz ⟨[0], 0, 0, 0, 1⟩ [5, 5] 2 0).2.1.getD 1 0 ≠ 0 := by
  have h : circular_buffer_get_data 8 pz ⟨[0], 0, 0, 0, 1⟩ [5, 5] 2 0 =
      (⟨[0], 0, 0, 0, 1⟩, [pz 5, 5], .ok 0) := by
    unfold circular_buffer_get_data memset_zero
    rw [if_neg (by omega)]
    rw [get_data_loop, dif_neg (by decide)]
    norm_num [List.range_succ]
  rw [h]
  refine ⟨rfl, rfl, by simp⟩

/-! ## Claim C8: FillFrom (`circular_buffer_set_data`) -/

/-- Repeated `push_step` of a list of values, oldest first. -/
def pushN (c : CBuf) : List Val → CBuf
  | [] => c
  | v :: vs => pushN (push_step c v) vs

/-- Pushing values that all fit through the public Push operation reaches
exactly `pushN`. -/
theorem runOps_pushN (vs : List Val) : ∀ c : CBuf, c.len + vs.length ≤ c.maxlen →
    (runOps c (vs.map Op.push)).1 = pushN c vs := by
  induction vs with
  | nil =>
    intro c _
    simp [runOps, pushN]
  | cons v vs ih =>
    intro c hfit
    have hne : c.len ≠ c.maxlen := by
      simp only [List.length_cons] at hfit
      omega
    rw [List.map_cons]
    simp only [runOps, push_eq_ok c v hne]
    rw [pushN]
    refine ih (push_step c v) ?_
    rw [push_step_len, push_step_maxlen]
    simp only [List.length_cons] at hfit
    omega

/-- Closed form of the fill loop: it push-steps the
`min (maxlen - len) (sourceLen - offset - count)` source elements starting
at source index `offset + count` and returns the incremented counter. -/
theorem set_data_loop_spec (n : Nat) : ∀ (c : CBuf) (buf : List Val) (len offset count : Int),
    c.maxlen - c.len ≤ n → 0 ≤ offset → 0 ≤ count → len ≤ (buf.length : Int) →
    set_data_loop c buf len offset count =
      (pushN c ((buf.drop (offset + count).toNat).take
          (min (c.maxlen - c.len) (len - offset - count).toNat)),
        count + (min (c.maxlen - c.len) (len - offset - count).toNat : Nat)) := by
  induction n with
  | zero =>
    intro c buf len offset count hn ho hc hb
    rw [set_data_loop, dif_neg (by omega)]
    have hm0 : min (c.maxlen - c.len) (len - offset - count).toNat = 0 := by omega
    simp [hm0, pushN]
  | succ n ih =>
    intro c buf len offset count hn ho hc hb
    by_cases hcond : c.len < c.maxlen ∧ count + offset < len
    · rw [set_data_loop, dif_pos hcond]
      have hi : (offset + count).toNat < buf.length := by omega
      have hv : buf.getD (offset + count).toNat 0 = buf.get ⟨(offset + count).toNat, hi⟩ := by
        rw [List.getD_eq_getElem buf 0 hi]
        simp
      have hlen1 := push_step_len c (buf.getD (offset + count).toNat 0)
      have hmax1 := push_step_maxlen c (buf.getD (offset + count).toNat 0)
      rw [ih (push_step c (buf.getD (offset + count).toNat 0)) buf len offset (count + 1)
        (by rw [hlen1, hmax1]; omega) ho (by omega) hb]
      have hm : min (c.maxlen - c.len) (len - offset - count).toNat
          = min ((push_step c (buf.getD (offset + count).toNat 0)).maxlen -
              (push_step c (buf.getD (offset + count).toNat 0)).len)
              (len - offset - (count + 1)).toNat + 1 := by
        rw [hlen1, hmax1]
        omega
      have hslice : (buf.drop (offset + count).toNat).take
          (min ((push_step c (buf.getD (offset + count).toNat 0)).maxlen -
              (push_step c (buf.getD (offset + count).toNat 0)).len)
              (len - offset - (count + 1)).toNat + 1)
          = buf.getD (offset + count).toNat 0 ::
            (buf.drop ((offset + count).toNat + 1)).take
              (min ((push_step c (buf.getD (offset + count).toNat 0)).maxlen -
                  (push_step c (buf.getD (offset + count).toNat 0)).len)
                  (len - offset - (count + 1)).toNat) := by
        rw [List.drop_eq_getElem_cons hi, List.take_succ_cons]
        rw [List.getD_eq_getElem buf 0 hi]
      have hidx : (offset + (count + 1)).toNat = (offset + count).toNat + 1 := by omega
      have hcnt : count + ((min ((push_step c (buf.getD (offset + count).toNat 0)).maxlen -
              (push_step c (buf.getD (offset + count).toNat 0)).len)
              (len - offset - (count + 1)).toNat + 1 : Nat) : Int)
          = (count + 1) + ((min ((push_step c (buf.getD (offset + count).toNat 0)).maxlen -
              (push_step c (buf.getD (offset + count).toNat 0)).len)
              (len - offset - (count + 1)).toNat : Nat) : Int) := by
        push_cast
        ring
      rw [hm, hslice, hcnt, pushN, hidx]
    · rw [set_data_loop, dif_neg hcond]
      have hm0 : min (c.maxlen - c.len) (len - offset - count).toNat = 0 := by omega
      simp [hm0, pushN]

/-- C8: for an initialized buffer, a source of at least `sourceLen`
elements, 0 <= offset <= sourceLen, FillFrom pushes the
k = min(maxlen - len, sourceLen - offset) source elements starting at
source[offset] with exactly the semantics of k repeated Pushes, returns k,
succeeds with 0 on an empty request (sourceLen == offset), and the
InvalidArgument failure of the C function happens iff sourceLen < 0 or the
buffer/source pointer is NULL, leaving the buffer untouched. -/
theorem C8_set_data_spec (c : CBuf) (src : List Val) (len offset : Int)
    (hInv : Inv c) (ho : 0 ≤ offset) (hol : offset ≤ len)
    (hsl : len ≤ (src.length : Int)) :
    (circular_buffer_set_data c src len offset =
      (pushN c ((src.drop offset.toNat).take (min (c.maxlen - c.len) (len - offset).toNat)),
        .ok ((min (c.maxlen - c.len) (len - offset).toNat : Nat) : Int))) ∧
    ((runOps c (((src.drop offset.toNat).take
          (min (c.maxlen - c.len) (len - offset).toNat)).map Op.push)).1 =
      pushN c ((src.drop offset.toNat).take (min (c.maxlen - c.len) (len - offset).toNat))) ∧
    (len = offset → circular_buffer_set_data c src len offset = (c, .ok 0)) ∧
    (∀ (co : Option CBuf) (dd : Option (List Val)) (l o : Int),
      ((circular_buffer_set_data_opt co dd l o).2 = .error .einval ↔
        (co = none ∨ dd = none ∨ l < 0)) ∧
      ((circular_buffer_set_data_opt co dd l o).2 = .error .einval →
        (circular_buffer_set_data_opt co dd l o).1 = co)) := by
  have hmain : circular_buffer_set_data c src len offset =
      (pushN c ((src.drop offset.toNat).take (min (c.maxlen - c.len) (len - offset).toNat)),
        .ok ((min (c.maxlen - c.len) (len - offset).toNat : Nat) : Int)) := by
    unfold circular_buffer_set_data
    rw [if_neg (by omega)]
    rw [set_data_loop_spec (c.maxlen - c.len) c src len offset 0 le_rfl ho le_rfl hsl]
    have h1 : len - offset - 0 = len - offset := by ring
    have h2 : (offset + 0).toNat = offset.toNat := by omega
    have h3 : (0 : Int) + ((min (c.maxlen - c.len) (len - offset).toNat : Nat) : Int)
        = ((min (c.maxlen - c.len) (len - offset).toNat : Nat) : Int) := by ring
    rw [h1, h2, h3]
  refine ⟨hmain, ?_, ?_, ?_⟩
  · apply runOps_pushN
    have : (((src.drop offset.toNat).take
        (min (c.maxlen - c.len) (len - offset).toNat))).length ≤ c.maxlen - c.len := by
      calc (((src.drop offset.toNat).take
            (min (c.maxlen - c.len) (len - offset).toNat))).length
          ≤ min (c.maxlen - c.len) (len - offset).toNat := by
            rw [List.length_take]
            exact Nat.min_le_left _ _
        _ ≤ c.maxlen - c.len := Nat.min_le_left _ _
    have hle := hInv.2.1
    omega
  · intro hlo
    rw [hmain]
    have hz : (len - offset).toNat = 0 := by omega
    rw [hz]
    simp [pushN]
  · intro co dd l o
    rcases co with _ | c'
    · simp [circular_buffer_set_data_opt]
    · rcases dd with _ | d'
      · simp [circular_buffer_set_data_opt]
      · by_cases hl : l < 0
        · simp [circular_buffer_set_data_opt, circular_buffer_set_data, hl]
        · simp [circular_buffer_set_data_opt, circular_buffer_set_data, hl]

/-- Witness for C8: filling a capacity-3 buffer from a four-element source
starting at offset 1. -/
theorem C8_set_data_spec_witness :
    Inv ⟨[0, 0, 0], 0, 0, 0, 3⟩ ∧ (0 : Int) ≤ 1 ∧ (1 : Int) ≤ 4 ∧
    (4 : Int) ≤ (([7, 8, 9, 4] : List Val).length : Int) ∧
    (circular_buffer_set_data ⟨[0, 0, 0], 0, 0, 0, 3⟩ [7, 8, 9, 4] 4 1 =
      (pushN ⟨[0, 0, 0], 0, 0, 0, 3⟩
          ((([7, 8, 9, 4] : List Val).drop (1 : Int).toNat).take
            (min (3 - 0) ((4 : Int) - 1).toNat)),
        .ok ((min (3 - 0) ((4 : Int) - 1).toNat : Nat) : Int))) :=
  ⟨by decide, by decide, by decide, by decide,
    (C8_set_data_spec ⟨[0, 0, 0], 0, 0, 0, 3⟩ [7, 8, 9, 4] 4 1 (by decide) (by decide)
      (by decide) (by decide)).1⟩

/-! ## Claim C5: Peek (`circular_buffer_peek`) -/

/-- C5 counterexample: buffer holding oldest-to-newest [10, 20], peek with
capacity 2, destination offset 0 and bufferOffset 1, on an LP64 platform
(element size 8) with the identity partial-slot oracle (the destination is
already all-zero and both slots are overwritten by the copy loop, so the
memset modelling plays no role at this input).  The claim predicts
destination [20, 0] (copy starting one position into the ordering) and
count 1; the code ignores `offset_cb`, copies [10, 20] from the tail and
returns 2. -/
theorem C5_counterexample :
    (circular_buffer_peek 8 (fun v => v) ⟨[10, 20], 1, 0, 2, 2⟩ [0, 0] 2 0 1).2.1 = [10, 20] ∧
    (circular_buffer_peek 8 (fun v => v) ⟨[10, 20], 1, 0, 2, 2⟩ [0, 0] 2 0 1).2.2 = .ok 2 ∧
    ¬ ((circular_buffer_peek 8 (fun v => v) ⟨[10, 20], 1, 0, 2, 2⟩ [0, 0] 2 0 1).2.1 = [20, 0] ∧
      (circular_buffer_peek 8 (fun v => v) ⟨[10, 20], 1, 0, 2, 2⟩ [0, 0] 2 0 1).2.2 = .ok 1) := by
  have hval : circular_buffer_peek 8 (fun v => v) ⟨[10, 20], 1, 0, 2, 2⟩ [0, 0] 2 0 1 =
      (⟨[10, 20], 1, 0, 2, 2⟩, [10, 20], .ok 2) := by
    simp [circular_buffer_peek, peek_loop, memset_zero, Int.tmod, List.range_succ]
  rw [hval]
  refine ⟨rfl, rfl, ?_⟩
  rintro ⟨h1, h2⟩
  simp at h1
/-- Closed form of the peek loop when the buffer holds more than one
element: starting from destination index `offset + count` and buffer
cursor `j`, it copies `min len (capacity - offset) - count` consecutive
buffer slots and returns the incremented counter. -/
theorem peek_loop_spec_gt1 (n : Nat) :
    ∀ (c : CBuf) (buf : List Val) (len offset count : Int) (j : Nat),
    1 < c.len → j < c.maxlen →
    (min (c.len : Int) (len - offset) - count).toNat ≤ n →
    0 ≤ offset → offset ≤ count →
    peek_loop c buf len offset count (j : Int) =
      (writeAt buf (offset + count).toNat
          ((List.range ((min (c.len : Int) (len - offset) - count).toNat)).map
            (fun t => c.buffer.getD ((j + t) % c.maxlen) 0)),
        count + ((min (c.len : Int) (len - offset) - count).toNat : Nat)) := by
  induction n with
  | zero =>
    intro c buf len offset count j h1 hj hn ho hoc
    have hstop : ¬ (count < (c.len : Int) ∧ count + offset < len) := by omega
    rw [peek_loop, dif_neg hstop]
    have hm0 : (min (c.len : Int) (len - offset) - count).toNat = 0 := by omega
    simp [hm0, writeAt]
  | succ n ih =>
    intro c buf len offset count j h1 hj hn ho hoc
    by_cases hcond : count < (c.len : Int) ∧ count + offset < len
    · rw [peek_loop, dif_pos hcond]
      have hmpos : 0 < c.maxlen := by omega
      have hcur : Int.tmod ((j : Int) + 1) (c.maxlen : Int)
          = (((j + 1) % c.maxlen : Nat) : Int) := by
        rw [Int.tmod_eq_emod (by omega) (by omega)]
        push_cast
        rfl
      have hread : ((j : Int)).toNat = j := Int.toNat_natCast j
      rw [if_pos (by omega : c.len > 1), hcur, hread]
      rw [ih c _ len offset (count + 1) ((j + 1) % c.maxlen) h1
        (Nat.mod_lt _ hmpos) (by omega) ho (by omega)]
      have hm : (min (c.len : Int) (len - offset) - count).toNat
          = (min (c.len : Int) (len - offset) - (count + 1)).toNat + 1 := by
        omega
      have hidx : (offset + (count + 1)).toNat = (offset + count).toNat + 1 := by
        omega
      have hcnt : count + (((min (c.len : Int) (len - offset) - (count + 1)).toNat + 1 : Nat) : Int)
          = (count + 1) + (((min (c.len : Int) (len - offset) - (count + 1)).toNat : Nat) : Int) := by
        push_cast
        ring
      rw [hm, hcnt, hidx]
      rw [List.range_succ_eq_map, List.map_cons, List.map_map]
      rw [writeAt]
      have hhead : c.buffer.getD ((j + 0) % c.maxlen) 0 = c.buffer.getD j 0 := by
        rw [Nat.add_zero, Nat.mod_eq_of_lt hj]
      rw [hhead]
      have htail : (List.range ((min (c.len : Int) (len - offset) - (count + 1)).toNat)).map
            ((fun t => c.buffer.getD ((j + t) % c.maxlen) 0) ∘ Nat.succ)
          = (List.range ((min (c.len : Int) (len - offset) - (count + 1)).toNat)).map
            (fun t => c.buffer.getD (((j + 1) % c.maxlen + t) % c.maxlen) 0) := by
        apply List.map_congr_left
        intro t _
        simp only [Function.comp_apply]
        congr 1
        rw [Nat.mod_add_mod]
        congr 1
        omega
      rw [htail]
    · rw [peek_loop, dif_neg hcond]
      have hm0 : (min (c.len : Int) (len - offset) - count).toNat = 0 := by omega
      simp [hm0, writeAt]

/-- C5 amended: for an initialized buffer, capacity > 0, offset >= 0 and
any platform (element size / partial-slot oracle), Peek overwrites the
first `capacity` BYTES of the destination with zeros (the memset passes
the element count as a byte count, so only the first capacity/S slots are
fully zeroed, the slot at capacity/S at most partially, and later slots
keep their contents), ignores `bufferOffset` entirely, copies
max(0, min(len, capacity - offset) - offset) elements from buffer
positions tail + offset, tail + offset + 1, ... (starting `offset`
positions into the oldest-to-newest ordering) into destination[2*offset],
destination[2*offset + 1], ..., returns offset plus the number copied, and
never mutates the buffer. -/
theorem C5_peek_spec (S : Nat) (pz : Val → Val) (c : CBuf) (dest : List Val)
    (len offset ocb : Int) (hInv : Inv c) (hlen : 0 < len) (ho : 0 ≤ offset) :
    circular_buffer_peek S pz c dest len offset ocb =
      (c, writeAt (memset_zero S pz dest len.toNat) (offset + offset).toNat
          ((List.range ((min (c.len : Int) (len - offset) - offset).toNat)).map
            (fun t => c.buffer.getD ((c.tail + offset.toNat + t) % c.maxlen) 0)),
        .ok (offset + ((min (c.len : Int) (len - offset) - offset).toNat : Nat))) := by
  unfold circular_buffer_peek
  rw [if_neg (by omega)]
  dsimp only
  by_cases hz : c.len = 0
  · rw [peek_loop, dif_neg (by rw [hz]; push_cast; omega)]
    have hm0 : (min (c.len : Int) (len - offset) - offset).toNat = 0 := by
      rw [hz]
      push_cast
      omega
    simp [hm0, writeAt]
  · have hmpos : 0 < c.maxlen := by
      have := hInv.2.1
      omega
    have htl : c.tail < c.maxlen := (hInv.2.2.1 hmpos).2
    have hj0 : Int.tmod ((c.tail : Int) + offset) (c.maxlen : Int)
        = (((c.tail + offset.toNat) % c.maxlen : Nat) : Int) := by
      rw [Int.tmod_eq_emod (by omega) (by omega)]
      push_cast [Int.toNat_of_nonneg ho]
      rfl
    rw [hj0]
    by_cases h1 : 1 < c.len
    · rw [peek_loop_spec_gt1 ((min (c.len : Int) (len - offset) - offset).toNat) c _
        len offset offset ((c.tail + offset.toNat) % c.maxlen) h1
        (Nat.mod_lt _ hmpos) le_rfl ho le_rfl]
      have hmap : (List.range ((min (c.len : Int) (len - offset) - offset).toNat)).map
            (fun t => c.buffer.getD (((c.tail + offset.toNat) % c.maxlen + t) % c.maxlen) 0)
          = (List.range ((min (c.len : Int) (len - offset) - offset).toNat)).map
            (fun t => c.buffer.getD ((c.tail + offset.toNat + t) % c.maxlen) 0) := by
        apply List.map_congr_left
        intro t _
        congr 1
        rw [Nat.mod_add_mod]
      rw [hmap]
    · have hone : c.len = 1 := by omega
      by_cases hoz : offset = 0
      · subst hoz
        rw [peek_loop, dif_pos (by omega)]
        dsimp only
        rw [if_neg (by omega : ¬ c.len > 1)]
        rw [peek_loop, dif_neg (by omega)]
        have hm1 : (min (c.len : Int) (len - 0) - 0).toNat = 1 := by
          omega
        rw [hm1]
        simp only [List.range_succ, List.range_zero, List.nil_append,
          List.map_cons, List.map_nil, writeAt]
        have hidx : ((0 : Int) + 0).toNat = 0 := by omega
        have hrd : (((c.tail + (0 : Int).toNat) % c.maxlen : Nat) : Int).toNat
            = (c.tail + (0 : Int).toNat + 0) % c.maxlen := by
          simp
          omega
        rw [hidx, hrd]
        norm_num
      · rw [peek_loop, dif_neg (by omega)]
        have hm0 : (min (c.len : Int) (len - offset) - offset).toNat = 0 := by
          omega
        simp [hm0, writeAt]

/-- Witness for the amended C5 at the counterexample configuration. -/
theorem C5_peek_spec_witness :
    Inv ⟨[10, 20], 1, 0, 2, 2⟩ ∧ (0 : Int) < 2 ∧ (0 : Int) ≤ 0 ∧
    circular_buffer_peek 8 (fun v => v) ⟨[10, 20], 1, 0, 2, 2⟩ [0, 0] 2 0 1 =
      (⟨[10, 20], 1, 0, 2, 2⟩,
        writeAt (memset_zero 8 (fun v => v) [0, 0] (2 : Int).toNat) ((0 : Int) + 0).toNat
          ((List.range ((min ((2 : Nat) : Int) ((2 : Int) - 0) - 0).toNat)).map
            (fun t => ([10, 20] : List Val).getD ((0 + (0 : Int).toNat + t) % 2) 0)),
        .ok (0 + ((min ((2 : Nat) : Int) ((2 : Int) - 0) - 0).toNat : Nat))) :=
  ⟨by decide, by decide, by decide,
    C5_peek_spec 8 (fun v => v) ⟨[10, 20], 1, 0, 2, 2⟩ [0, 0] 2 0 1 (by decide) (by decide)
      (by decide)⟩

end CircularBuffer
